import Mathlib

/-!
Verification of the Mod Repository Engine of the Syleaf Mod Manager.

The definitions below are a shallow embedding of the relevant handlers of
the Electron main process (characters and mods IPC handlers, the archive
primary-entry computation, the renderer cache and refresh pipeline).
Filesystem state is modelled explicitly: a character directory is a list of
named entries, an archive is a list of named members, and every handler is
a pure function from that state to a new state together with its result
value, with thrown errors surfaced through Except.
-/

namespace SyleafMM

/-! ## String helpers

Models of the JavaScript string and regex operations used by the handlers.
All of them work on the character list of the string so that they evaluate
well inside proofs. Only ASCII case folding is relevant to the repository
(the DISABLED_ prefix, archive extensions and reserved file names are all
ASCII), matching Char.toLower / Char.toUpper.
-/

/-- JS s.toLowerCase() -/
def lowerStr (s : String) : String := String.mk (s.toList.map Char.toLower)

/-- JS s.trim() -/
def trimStr (s : String) : String :=
  String.mk (((s.toList.dropWhile Char.isWhitespace).reverse.dropWhile Char.isWhitespace).reverse)

/-- JS s.startsWith(pre) (case sensitive) -/
def startsWithP (s pre : String) : Bool := pre.toList.isPrefixOf s.toList

/-- Case-insensitive startsWith, as produced by a /^pat/i regex test. -/
def startsWithCI (s pre : String) : Bool := (lowerStr pre).toList.isPrefixOf (lowerStr s).toList

/-- Case-insensitive endsWith, as produced by a /pat$/i regex test. -/
def endsWithCI (s suf : String) : Bool := (lowerStr suf).toList.isSuffixOf (lowerStr s).toList

/-- JS /^DISABLED_/i.test(s) -/
def hasDisabled (s : String) : Bool := startsWithCI s "DISABLED_"

/-- JS s.replace(/^DISABLED_/i, ""): drop the 9-character prefix when present. -/
def stripDisabled (s : String) : String :=
  if hasDisabled s then String.mk (s.toList.drop 9) else s

/-- JS s.replace(/\.(zip|7z|rar)$/i, "") -/
def stripArchiveExt (s : String) : String :=
  if endsWithCI s ".zip" then s.dropRight 4
  else if endsWithCI s ".7z" then s.dropRight 3
  else if endsWithCI s ".rar" then s.dropRight 4
  else s

/-- needle occurs as a contiguous sublist of hay -/
def subListOf (needle hay : List Char) : Bool := hay.tails.any (fun t => needle.isPrefixOf t)

/-- JS s.toLowerCase().includes(sub.toLowerCase()) -/
def containsCI (s sub : String) : Bool := subListOf (lowerStr sub).toList (lowerStr s).toList

/-- JS path.extname on a base name: the suffix from the last dot, or the empty
string when there is no dot or the only dot is the leading character. -/
def extnameJS (s : String) : String :=
  let cs := s.toList
  let revAfter := cs.reverse.takeWhile (fun c => c != '.')
  if revAfter.length == cs.length then ""
  else if revAfter.length + 1 == cs.length then ""
  else String.mk ('.' :: revAfter.reverse)

/-- JS /(zip|7z|rar)$/i.test(path.extname(f)), the archive test used by
mods:getData, mods:setData and the primary-internal-name handlers. -/
def archExtTest (f : String) : Bool :=
  endsWithCI (extnameJS f) "zip" || endsWithCI (extnameJS f) "7z" || endsWithCI (extnameJS f) "rar"

/-- Explicit Option.orElse, for the pattern a.find(p) || a.find(q). -/
def orElseO {α : Type} (a b : Option α) : Option α :=
  match a with
  | some x => some x
  | none => b

/-! ## Character-directory filesystem model

A character directory holds mod folders and flat archive files. Each entry
carries a content identifier so that an overwrite (loss of an entry) is
observable in the model.
-/

inductive FKind where
  | dir
  | file
deriving DecidableEq, Repr

structure Ent where
  name : String
  kind : FKind
  cid : Nat
deriving DecidableEq, Repr

/-- The entries of one character directory. -/
abbrev CDir := List Ent

/-- fs.statSync(path).isDirectory() on a name inside the character directory. -/
def isDirE (fs : CDir) (n : String) : Bool :=
  fs.any (fun e => e.name == n && e.kind == FKind.dir)

/-- fsp.readdir of the character directory. -/
def filesOf (fs : CDir) : List String := fs.map (·.name)

/-- fsp.rm(n, force: true) without recursive: removes a file named n;
on a directory it rejects, and every call site swallows that rejection,
so the directory case leaves the state unchanged. -/
def rmForceFile (fs : CDir) (n : String) : CDir :=
  fs.filter (fun e => !(e.name == n && e.kind == FKind.file))

/-- fsp.rename(fr, to). Follows the Node/Windows semantics exercised by the
handlers: missing source rejects; an existing target that is a file is
silently replaced when the source is also a file; any other existing target
rejects. -/
def renameE (fs : CDir) (fr dest : String) : Except String CDir :=
  match fs.find? (fun e => e.name == fr) with
  | none => .error "ENOENT"
  | some src =>
    match fs.find? (fun e => e.name == dest) with
    | some dst =>
      if dst.kind == FKind.file && src.kind == FKind.file then
        .ok ((fs.filter (fun e => e.name != dest)).map
              (fun e => if e.name == fr then { e with name := dest } else e))
      else .error "EEXIST"
    | none =>
      .ok (fs.map (fun e => if e.name == fr then { e with name := dest } else e))

/-! ## mods:enable / mods:disable

Embedding of the mods:enable (part_001 lines 1046-1092), mods:disable
(1112-1155) and mods:disableFlat (1158-1172) handlers. writeModMeta only
writes mod.json inside the mod folder and never changes an entry name at
the character-directory level, so it is a no-op in this model.
-/

/-- The collision loop: target (i), target (i+1), ... until no directory of
that name exists. Structured with fuel; the handlers call it with fuel
larger than the number of entries, which always suffices. -/
def firstFreeDir (fs : CDir) (mk : Nat → String) : Nat → Nat → String
  | 0, i => mk i
  | fuel + 1, i => if isDirE fs (mk i) then firstFreeDir fs mk fuel (i + 1) else mk i

/-- mods:enable flat-archive finder (lines 1083-1084): exact match on the
prefix-stripped, extension-stripped base name, else first substring match;
candidates restricted to DISABLED_-prefixed names. -/
def enableFindArch (files : List String) (rawName : String) : Option String :=
  orElseO
    (files.find? (fun f =>
      hasDisabled f && (lowerStr (stripArchiveExt (stripDisabled f)) == lowerStr rawName)))
    (files.find? (fun f => hasDisabled f && containsCI f rawName))

/-- mods:disable flat-archive finder (lines 1146-1147): candidates restricted
to names without the DISABLED_ prefix. -/
def disableFindArch (files : List String) (rawName : String) : Option String :=
  orElseO
    (files.find? (fun f =>
      !hasDisabled f && (lowerStr (stripArchiveExt f) == lowerStr rawName)))
    (files.find? (fun f => !hasDisabled f && containsCI f rawName))

/-- mods:getData / mods:setData archive finder (lines 332-333 and 387-388). -/
def dataFindArch (files : List String) (modName : String) : Option String :=
  orElseO
    (files.find? (fun f =>
      archExtTest f && (lowerStr (stripArchiveExt (stripDisabled f)) == lowerStr modName)))
    (files.find? (fun f => archExtTest f && containsCI f modName))

/-- mods:enable (lines 1046-1092). Returns the new directory state and the
handler result value. -/
def modsEnable (rootSet : Bool) (character modName : String) (fs : CDir) :
    Except String (CDir × Bool) :=
  if !rootSet then .error "Mods root not set"
  else if trimStr character == "" || trimStr modName == "" then
    .error "Character and modName are required"
  else
    let rawName := stripDisabled modName
    let realDir : Option String :=
      if isDirE fs rawName then some rawName
      else if isDirE fs ("DISABLED_" ++ rawName) then some ("DISABLED_" ++ rawName)
      else none
    match realDir with
    | some baseFolder =>
      if hasDisabled baseFolder then
        let desiredBase := stripDisabled baseFolder
        if desiredBase == baseFolder then .ok (fs, true)
        else
          let target :=
            if isDirE fs desiredBase then
              firstFreeDir fs (fun i => desiredBase ++ " (" ++ toString i ++ ")")
                (fs.length + 1) 2
            else desiredBase
          match renameE fs baseFolder target with
          | .error e => .error e
          | .ok fs1 => .ok (fs1, true)
      else
        .ok (fs, true)
    | none =>
      match enableFindArch (filesOf fs) rawName with
      | none => .ok (fs, false)
      | some targetArch =>
        let toName := stripDisabled targetArch
        let fs1 := rmForceFile fs toName
        match renameE fs1 targetArch toName with
        | .error e => .error e
        | .ok fs2 => .ok (fs2, true)

/-- mods:disable (lines 1112-1155). -/
def modsDisable (rootSet : Bool) (character modName : String) (fs : CDir) :
    Except String (CDir × Bool) :=
  if !rootSet then .error "Mods root not set"
  else if trimStr character == "" || trimStr modName == "" then
    .error "Character and modName are required"
  else
    let rawName := stripDisabled modName
    let realDir : Option String :=
      if isDirE fs rawName then some rawName
      else if isDirE fs ("DISABLED_" ++ rawName) then some ("DISABLED_" ++ rawName)
      else none
    match realDir with
    | some baseFolder =>
      if !hasDisabled baseFolder then
        let target := "DISABLED_" ++ baseFolder
        let finalTarget :=
          if isDirE fs target then
            firstFreeDir fs (fun i => "DISABLED_" ++ baseFolder ++ " (" ++ toString i ++ ")")
              (fs.length + 1) 2
          else target
        match renameE fs baseFolder finalTarget with
        | .error e => .error e
        | .ok fs1 => .ok (fs1, true)
      else
        .ok (fs, true)
    | none =>
      match disableFindArch (filesOf fs) rawName with
      | none => .ok (fs, false)
      | some targetArch =>
        let toName := "DISABLED_" ++ targetArch
        let fs1 := rmForceFile fs toName
        match renameE fs1 targetArch toName with
        | .error e => .error e
        | .ok fs2 => .ok (fs2, true)

/-- mods:disableFlat (lines 1158-1172): the flat-archive path alone. -/
def modsDisableFlat (rootSet : Bool) (modName : String) (fs : CDir) :
    Except String (CDir × Bool) :=
  if !rootSet then .error "Mods root not set"
  else
    match disableFindArch (filesOf fs) modName with
    | none => .ok (fs, false)
    | some target =>
      let toName := "DISABLED_" ++ target
      let fs1 := rmForceFile fs toName
      match renameE fs1 target toName with
      | .error e => .error e
      | .ok fs2 => .ok (fs2, true)

/-! ## Embedded metadata (mods:getData / mods:setData)

The metadata record is the JSON object with optional pageUrl and imageUrl
fields. JSON.stringify omits fields whose value is undefined and the code
normalizes each field with x || undefined on both write and read, which
maps the empty string (the only falsy string) to undefined. File contents
are modelled as either a parsed metadata record or an opaque payload.
-/

structure EmbMeta where
  pageUrl : Option String
  imageUrl : Option String
deriving DecidableEq, Repr

/-- JS x || undefined on an optional string field. -/
def orUndef : Option String → Option String
  | some s => if s == "" then none else some s
  | none => none

/-- The field normalization applied by both mods:getData and mods:setData. -/
def normMeta (m : EmbMeta) : EmbMeta := ⟨orUndef m.pageUrl, orUndef m.imageUrl⟩

/-- A valid metadata value per the spec: optional fields that are non-empty
strings when present. -/
def validMetaB (m : EmbMeta) : Bool :=
  (match m.pageUrl with
   | some s => s != ""
   | none => true) &&
  (match m.imageUrl with
   | some s => s != ""
   | none => true)

inductive FileC where
  | metaFile (m : EmbMeta)
  | payload (cid : Nat)
deriving DecidableEq, Repr

/-- Contents of a mod folder or of an archive: named members in order. -/
abbrev Members := List (String × FileC)

/-- fsp.writeFile: create or replace the member named n. -/
def fwrite (d : Members) (n : String) (c : FileC) : Members :=
  if d.any (fun e => e.1 == n) then d.map (fun e => if e.1 == n then (n, c) else e)
  else d ++ [(n, c)]

/-- fsp.unlink with the rejection swallowed: remove the member when present. -/
def funlink (d : Members) (n : String) : Members := d.filter (fun e => e.1 != n)

def fhas (d : Members) (n : String) : Bool := d.any (fun e => e.1 == n)

def fget (d : Members) (n : String) : Option FileC :=
  (d.find? (fun e => e.1 == n)).map (fun e => e.2)

/-- mods:setData, folder branch (lines 378-383): write data.txt with the
serialized record, then delete the legacy data member. -/
def setDataFolder (d : Members) (payload : EmbMeta) : Members :=
  funlink (fwrite d "data.txt" (.metaFile (normMeta payload))) "data"

/-- mods:getData, folder branch (lines 317-330): read data.txt, else legacy
data; a parse failure or a missing member yields none. -/
def getDataFolder (d : Members) : Option EmbMeta :=
  match (if fhas d "data.txt" then fget d "data.txt" else fget d "data") with
  | some (.metaFile m) => some (normMeta m)
  | _ => none

/-- 7z d archive n: remove every member named n. -/
def adel (a : Members) (n : String) : Members := a.filter (fun e => e.1 != n)

/-- 7z a archive n (from a temp dir holding the new file): add, replacing any
member of the same name. -/
def aadd (a : Members) (n : String) (c : FileC) : Members := adel a n ++ [(n, c)]

/-- 7z x archive n into a temp dir, then read the extracted file. -/
def aget (a : Members) (n : String) : Option FileC :=
  (a.find? (fun e => e.1 == n)).map (fun e => e.2)

/-- mods:setData, archive branch (lines 384-412): delete the legacy data
member, delete data.txt, then add the freshly serialized data.txt. -/
def setDataArch (a : Members) (payload : EmbMeta) : Members :=
  aadd (adel (adel a "data") "data.txt") "data.txt" (.metaFile (normMeta payload))

/-- mods:getData, archive branch (lines 331-366): extract data.txt and the
legacy data member, prefer data.txt, parse. -/
def getDataArch (a : Members) : Option EmbMeta :=
  match (if (aget a "data.txt").isSome then aget a "data.txt" else aget a "data") with
  | some (.metaFile m) => some (normMeta m)
  | _ => none

/-! ## mods:renamePrimaryInternal, folder branch (lines 449-469)

The reserved-name filter of the folder primary computation (lines 456-461)
excludes data, data.txt and preview images. The handler then renames the
primary entry. The access-then-throw guard at line 467 sits inside its own
try block whose catch clause is empty, so the thrown TargetExists error is
swallowed and the rename proceeds regardless.
-/

/-- /^preview\.(png|jpe?g|webp|gif)$/i -/
def previewImgName (n : String) : Bool :=
  ["preview.png", "preview.jpg", "preview.jpeg", "preview.webp", "preview.gif"].contains
    (lowerStr n)

/-- The reserved-name filter applied to folder entries (lines 456-461 and
426-431). -/
def folderPrimaryFilter (ents : CDir) : CDir :=
  ents.filter (fun e =>
    !(lowerStr e.name == "data" || lowerStr e.name == "data.txt" || previewImgName e.name))

/-- mods:getPrimaryInternalName, folder branch (lines 423-435): first
directory among the filtered entries, else the first filtered entry. -/
def folderPrimaryName (ents : CDir) : Option String :=
  match folderPrimaryFilter ents with
  | [] => none
  | f0 :: rest =>
    match (f0 :: rest).find? (fun e => e.kind == FKind.dir) with
    | some d => some d.name
    | none => some f0.name

/-- mods:renamePrimaryInternal, folder branch. ents is the content of the
mod folder. Returns the new content and the changed flag. -/
def renamePrimaryInternalFolder (ents : CDir) (newInternalName : String) :
    Except String (CDir × Bool) :=
  if trimStr newInternalName == "" then .ok (ents, false)
  else
    match folderPrimaryFilter ents with
    | [] => .ok (ents, false)
    | f0 :: rest =>
      let primary :=
        match (f0 :: rest).find? (fun e => e.kind == FKind.dir) with
        | some d => d.name
        | none => f0.name
      if primary == newInternalName then .ok (ents, false)
      else
        -- the TargetExists check of line 467 is evaluated and discarded:
        -- the throw inside the try block is caught by the empty catch
        let _deadCheck := ents.any (fun e => e.name == newInternalName)
        match renameE ents primary newInternalName with
        | .error e => .error e
        | .ok ents1 => .ok (ents1, true)

/-! ## Characters: rename and normalizeNames

The mods root holds one directory per character. The application targets
Windows, so path resolution is case-insensitive: this is exactly why the
handlers route case-only renames through a temporary name. The model
resolves names case-insensitively and refuses to rename a directory onto a
distinct existing entry, matching fsp.rename on directories there.

fsp.rename can also reject for environmental reasons (locks, permissions);
normalizeNames catches such per-entry failures and reports the entry as
skipped. The model exposes this through a failure oracle indexed by the
running count of rename calls: oracle k = false makes the k-th rename call
reject before touching the filesystem.
-/

structure CEnt where
  name : String
  isDir : Bool
  cid : Nat
deriving DecidableEq, Repr

abbrev RootDir := List CEnt

def ciEq (a b : String) : Bool := lowerStr a == lowerStr b

/-- fsp.access on a case-insensitive filesystem. -/
def existsCI (fs : RootDir) (n : String) : Bool := fs.any (fun e => ciEq e.name n)

/-- isDirectory(path.join(modsRoot, n)) on a case-insensitive filesystem. -/
def isDirCI (fs : RootDir) (n : String) : Bool :=
  fs.any (fun e => ciEq e.name n && e.isDir)

/-- fsp.rename of a character directory. allowed = false injects an
environmental rejection. Otherwise: missing source rejects; a distinct
existing entry matching the destination rejects (directories are not
overwritten); a case-only move of the source itself succeeds. -/
def renameCI (fs : RootDir) (fr dest : String) (allowed : Bool) : Except String RootDir :=
  if !allowed then .error "EIO"
  else
    match fs.find? (fun e => ciEq e.name fr) with
    | none => .error "ENOENT"
    | some src =>
      if fs.any (fun e => ciEq e.name dest && e.name != src.name) then .error "EEXIST"
      else .ok (fs.map (fun e => if e.name == src.name then { e with name := dest } else e))

/-- characters:rename (lines 857-890). ts models Date.now() for the
temporary name. The access-then-throw guard at line 881 sits inside a try
block with an empty catch, so its TargetExists error is swallowed and the
rename is attempted regardless. -/
def charactersRename (rootSet : Bool) (fs : RootDir) (oldName newName : String) (ts : Nat) :
    Except String (RootDir × Bool) :=
  if !rootSet then .error "Mods root not set"
  else
    let fr :=
      if isDirCI fs oldName then oldName
      else if isDirCI fs ("DISABLED_" ++ oldName) then "DISABLED_" ++ oldName
      else oldName
    let dest :=
      if isDirCI fs oldName then newName
      else if isDirCI fs ("DISABLED_" ++ oldName) then "DISABLED_" ++ newName
      else newName
    if !isDirCI fs fr then .error "Source character does not exist"
    else if fr == dest then .ok (fs, false)
    else if lowerStr oldName == lowerStr newName then
      let temp := oldName ++ "__tmp__" ++ toString ts
      match renameCI fs fr temp true with
      | .error e => .error e
      | .ok fs1 =>
        match renameCI fs1 temp dest true with
        | .error e => .error e
        | .ok fs2 => .ok (fs2, true)
    else
      -- line 881: try (access(dest); throw TargetExists) catch -- swallowed
      let _deadCheck := existsCI fs dest
      match renameCI fs fr dest true with
      | .error e => .error e
      | .ok fs1 => .ok (fs1, true)

/-- The canonicalization rule of characters:normalizeNames (lines 898-902):
trim, first letter upper, rest lower. -/
def normalizeStr (n : String) : String :=
  let t := trimStr n
  if t == "" then n
  else
    match t.toList with
    | [] => n
    | c :: rest => String.mk (c.toUpper :: rest.map Char.toLower)

structure NState where
  fs : RootDir
  changed : List (String × String)
  skipped : List String
  calls : Nat
deriving DecidableEq, Repr

structure NReport where
  changed : List (String × String)
  skipped : List String
deriving DecidableEq, Repr

/-- One iteration of the characters:normalizeNames loop (lines 904-931) for
the snapshot entry name. tsOf models the per-iteration Date.now() for the
temporary name, indexed like the oracle by the rename call counter. -/
def normStep (oracle : Nat → Bool) (tsOf : Nat → Nat) (st : NState) (name : String) : NState :=
  if !(isDirCI st.fs name) then st
  else if normalizeStr name == name then st
  else if lowerStr name == lowerStr (normalizeStr name) then
    -- case-only rename through the temporary name name__tmp__<Date.now()>
    match renameCI st.fs name (name ++ "__tmp__" ++ toString (tsOf st.calls))
        (oracle st.calls) with
    | .error _ =>
      { st with skipped := st.skipped ++ [name], calls := st.calls + 1 }
    | .ok fs1 =>
      match renameCI fs1 (name ++ "__tmp__" ++ toString (tsOf st.calls))
          (normalizeStr name) (oracle (st.calls + 1)) with
      | .error _ =>
        { st with fs := fs1, skipped := st.skipped ++ [name], calls := st.calls + 2 }
      | .ok fs2 =>
        { st with fs := fs2, changed := st.changed ++ [(name, normalizeStr name)],
                  calls := st.calls + 2 }
  else if existsCI st.fs (normalizeStr name) then
    { st with skipped := st.skipped ++ [name] }
  else
    match renameCI st.fs name (normalizeStr name) (oracle st.calls) with
    | .error _ =>
      { st with skipped := st.skipped ++ [name], calls := st.calls + 1 }
    | .ok fs1 =>
      { st with fs := fs1, changed := st.changed ++ [(name, normalizeStr name)],
                calls := st.calls + 1 }

/-- The full loop over the readdir snapshot taken before any rename. -/
def normalizeNamesRun (oracle : Nat → Bool) (tsOf : Nat → Nat) (fs : RootDir) : NState :=
  (fs.map (·.name)).foldl (normStep oracle tsOf) ⟨fs, [], [], 0⟩

/-- characters:normalizeNames (lines 892-936). -/
def charactersNormalizeNames (rootSet : Bool) (oracle : Nat → Bool) (tsOf : Nat → Nat)
    (fs : RootDir) : Except String NReport :=
  if !rootSet then .error "Mods root not set"
  else
    let st := normalizeNamesRun oracle tsOf fs
    .ok ⟨st.changed, st.skipped⟩

/-! ## Archive primary entry (getPrimaryInternalNameFromArchive, lines 680-748)

The handler parses the machine-readable 7z -slt listing into records of
path and directory flag; RawEntry models one parsed record. The scan over
the records mirrors the source loop: skip listing headers (paths with a
drive colon, the current-directory markers), take the top-level component,
drop reserved names, collect first-seen top names and a directory map, and
return the first-seen directory top, else the first-seen top.
-/

structure RawEntry where
  path : String
  folderFlag : Bool
deriving DecidableEq, Repr

/-- splitFirst (lines 719-722): the path up to the first slash or
backslash, or the whole path when it has no separator. -/
def splitFirstTop (p : String) : String :=
  String.mk (p.toList.takeWhile (fun c => c != '/' && c != '\\'))

/-- The per-entry skips of the loop at lines 724-741: empty path, paths
with a colon, the current-directory markers, empty top, reserved tops
(data, data.txt, /^preview\./i). -/
def eligEntry (e : RawEntry) : Bool :=
  e.path != "" &&
  !(e.path.toList.any (fun c => c == ':')) &&
  e.path != "." && e.path != "./" &&
  splitFirstTop e.path != "" &&
  !(lowerStr (splitFirstTop e.path) == "data") &&
  !(lowerStr (splitFirstTop e.path) == "data.txt") &&
  !(startsWithCI (splitFirstTop e.path) "preview.")

/-- hasChildren (line 737): some other listed path extends top with a
separator. -/
def hasChildrenP (allPaths : List String) (top : String) : Bool :=
  allPaths.any (fun ap => ap != top && (startsWithP ap (top ++ "/") || startsWithP ap (top ++ "\\")))

structure ScanSt where
  seen : List String
  dmap : List (String × Bool)
deriving DecidableEq, Repr

def dlookup (m : List (String × Bool)) (k : String) : Option Bool :=
  (m.find? (fun e => e.1 == k)).map (fun e => e.2)

def dset (m : List (String × Bool)) (k : String) (v : Bool) : List (String × Bool) :=
  if m.any (fun e => e.1 == k) then m.map (fun e => if e.1 == k then (k, v) else e)
  else m ++ [(k, v)]

/-- One iteration of the scan loop (lines 724-741): record the first-seen
top name and update the directory map (set true when the entry is a
directory by flag or children, record false only when absent). -/
def scanStep (allPaths : List String) (st : ScanSt) (e : RawEntry) : ScanSt :=
  if eligEntry e then
    ⟨if st.seen.any (fun t => t == splitFirstTop e.path) then st.seen
      else st.seen ++ [splitFirstTop e.path],
     if e.folderFlag || hasChildrenP allPaths (splitFirstTop e.path) then
       dset st.dmap (splitFirstTop e.path) true
     else if (dlookup st.dmap (splitFirstTop e.path)).isSome then st.dmap
     else st.dmap ++ [(splitFirstTop e.path, false)]⟩
  else st

def scanEntries (es : List RawEntry) : ScanSt :=
  es.foldl (scanStep (es.map (·.path))) ⟨[], []⟩

/-- getPrimaryInternalNameFromArchive on the parsed listing
(lines 742-744): first-seen directory top, else the first-seen top, none
when nothing eligible was listed. -/
def getPrimaryFromArchive (es : List RawEntry) : Option String :=
  if (scanEntries es).seen.isEmpty then none
  else
    match (scanEntries es).seen.find?
        (fun t => dlookup (scanEntries es).dmap t == some true) with
    | some t => some t
    | none => (scanEntries es).seen.head?

/-! The claim-shaped description of the same computation: exclude reserved
names, keep first-seen order, prefer a container over a leaf. These
definitions follow the words of the specification; the theorem for C6
proves them equal to the scan above. -/

/-- One step of first-seen collection of eligible top-level names. -/
def seenStepF (acc : List String) (e : RawEntry) : List String :=
  if eligEntry e then
    if acc.any (fun x => x == splitFirstTop e.path) then acc
    else acc ++ [splitFirstTop e.path]
  else acc

/-- First-seen eligible top-level names, in listing order. -/
def firstSeenTops (es : List RawEntry) : List String := es.foldl seenStepF []

/-- Some eligible record has this top-level name. -/
def eTop (es : List RawEntry) (t : String) : Bool :=
  es.any (fun e => eligEntry e && (splitFirstTop e.path == t))

/-- Some eligible record with this top-level name carries the directory flag. -/
def eFlag (es : List RawEntry) (t : String) : Bool :=
  es.any (fun e => eligEntry e && (splitFirstTop e.path == t) && e.folderFlag)

/-- A top-level name is a container when some eligible record with that top
carries the directory flag, or some listed path has children under it. -/
def topIsDir (es : List RawEntry) (t : String) : Bool :=
  eFlag es t || hasChildrenP (es.map (·.path)) t

/-- The specification-shaped primary-entry function: first-seen container,
else first-seen remaining entry, else none. -/
def primarySpec (es : List RawEntry) : Option String :=
  match (firstSeenTops es).find? (topIsDir es) with
  | some t => some t
  | none => (firstSeenTops es).head?

/-! ## Renderer per-character cache (part_005 lines 62-97)

The cache is a JS Map from character name to an entry holding the derived
view snapshot and a last-access timestamp. JS Map iteration follows
insertion order and set on an existing key keeps its position, so the model
is an insertion-ordered association list with unique keys.
-/

structure CacheEntry (α : Type) where
  data : α
  ts : Nat
deriving DecidableEq, Repr

abbrev CacheMap (α : Type) := List (String × CacheEntry α)

def mFind {α : Type} (c : CacheMap α) (k : String) : Option (CacheEntry α) :=
  (c.find? (fun p => p.1 == k)).map (fun p => p.2)

/-- Map.set: update in place when the key exists, else append. -/
def mSet {α : Type} (c : CacheMap α) (k : String) (e : CacheEntry α) : CacheMap α :=
  if c.any (fun p => p.1 == k) then c.map (fun p => if p.1 == k then (k, e) else p)
  else c ++ [(k, e)]

def mDelete {α : Type} (c : CacheMap α) (k : String) : CacheMap α :=
  c.filter (fun p => p.1 != k)

/-- One comparison of the eviction scan: keep the running best unless the
next entry has a strictly smaller timestamp (the first minimum wins ties,
as with oldestTs initialized to positive infinity and a strict <). -/
def oldestStep {α : Type} (best : Option (String × Nat)) (p : String × CacheEntry α) :
    Option (String × Nat) :=
  match best with
  | none => some (p.1, p.2.ts)
  | some (bk, bt) => if p.2.ts < bt then some (p.1, p.2.ts) else some (bk, bt)

/-- The eviction scan (lines 90-94): the first entry in iteration order
attaining the minimum timestamp. -/
def oldestKey {α : Type} (c : CacheMap α) : Option String :=
  (c.foldl oldestStep none).map (fun b => b.1)

/-- writeCache (lines 86-97) with MAX_CACHE = 5; now models Date.now(). -/
def writeCache {α : Type} (c : CacheMap α) (k : String) (d : α) (now : Nat) : CacheMap α :=
  let c1 := mSet c k ⟨d, now⟩
  if 5 < c1.length then
    match oldestKey c1 with
    | some ok2 => mDelete c1 ok2
    | none => c1
  else c1

/-- applyCache (lines 73-84): hydrate from the cache and refresh the LRU
timestamp of the entry that was read. -/
def applyCache {α : Type} (c : CacheMap α) (k : String) (now : Nat) :
    Option α × CacheMap α :=
  match mFind c k with
  | none => (none, c)
  | some e => (some e.data, mSet c k ⟨e.data, now⟩)

/-! ## Refresh pipeline generations (part_005 lines 108-125 and 157-252)

refreshMods stores its load identifier in latestLoadRef when one was
passed, and every application of a task result or of the final cache
write-through first compares its own identifier against the current one,
applying the result only on a match; calls without an identifier apply
unconditionally. Load identifiers are Date.now() readings. The trace model
below replays any interleaving of those observable steps.
-/

inductive RAct where
  | start (inv : Nat) (tok : Option Nat)
  | applyTask (inv : Nat) (tok : Option Nat) (res : Nat)
  | writeBack (inv : Nat) (tok : Option Nat)
deriving DecidableEq, Repr

structure RSt where
  latest : Option Nat
  applied : List (Nat × Nat)
  cachedBy : Option Nat
deriving DecidableEq, Repr

/-- The guard of every application site: !loadId || loadId ===
latestLoadRef.current. -/
def freshOk (latest tok : Option Nat) : Bool :=
  match tok with
  | none => true
  | some t => latest == some t

def rstep (s : RSt) : RAct → RSt
  | .start _ tok =>
    match tok with
    | some t => { s with latest := some t }
    | none => s
  | .applyTask inv tok res =>
    if freshOk s.latest tok then { s with applied := s.applied ++ [(inv, res)] } else s
  | .writeBack inv tok =>
    if freshOk s.latest tok then { s with cachedBy := some inv } else s

def runTrace (s : RSt) (tr : List RAct) : RSt := tr.foldl rstep s

def initR : RSt := ⟨none, [], none⟩

/-- The load identifier of one refreshMods call: const loadId = Date.now()
(line 121), a reading of the millisecond clock. -/
def loadIdAt (now : Nat → Nat) (callIdx : Nat) : Nat := now callIdx

deriving instance DecidableEq for Except

/-! ## Helper lemmas -/

theorem stripDisabled_of_not {m : String} (h : hasDisabled m = false) : stripDisabled m = m := by
  simp [stripDisabled, h]

theorem lowerStr_append (a b : String) : lowerStr (a ++ b) = lowerStr a ++ lowerStr b := by
  apply String.ext
  simp [lowerStr, String.data_append, String.toList]

theorem hasDisabled_append (s : String) : hasDisabled ("DISABLED_" ++ s) = true := by
  have h : lowerStr ("DISABLED_" ++ s) = "disabled_" ++ lowerStr s := by
    rw [lowerStr_append]
    rfl
  simp only [hasDisabled, startsWithCI, h]
  show ("disabled_".toList.isPrefixOf ("disabled_" ++ lowerStr s).toList) = true
  have hd : ("disabled_" ++ lowerStr s).toList = "disabled_".toList ++ (lowerStr s).toList := by
    simp [String.toList, String.data_append]
  rw [hd, List.isPrefixOf_iff_prefix]
  exact List.prefix_append _ _

theorem isDirE_false_of_all {fs : CDir} {n : String}
    (h : fs.all (fun e => e.name != n) = true) : isDirE fs n = false := by
  simp only [isDirE, List.any_eq_false]
  intro e he
  have := (List.all_eq_true.mp h) e he
  simp only [bne_iff_ne, ne_eq] at this
  simp [this]

theorem renameE_clean {fs : CDir} {fr dest : String}
    (hsrc : (fs.find? (fun e => e.name == fr)).isSome = true)
    (hdst : ∀ e ∈ fs, e.name ≠ dest) :
    renameE fs fr dest =
      .ok (fs.map (fun e => if e.name == fr then { e with name := dest } else e)) := by
  unfold renameE
  cases hf : fs.find? (fun e => e.name == fr) with
  | none => rw [hf] at hsrc; simp at hsrc
  | some src =>
    have hnone : fs.find? (fun e => e.name == dest) = none := by
      rw [List.find?_eq_none]
      intro e he
      simp [hdst e he]
    rw [hnone]

theorem renameCI_ok_any {fs : RootDir} {fr dest : String} {al : Bool} {fs1 : RootDir}
    (h : renameCI fs fr dest al = .ok fs1) :
    fs1.any (fun e => e.name == dest) = true := by
  unfold renameCI at h
  split at h
  · exact absurd h (by simp)
  · split at h
    · exact absurd h (by simp)
    · rename_i src hf
      split at h
      · exact absurd h (by simp)
      · injection h with h1
        subst h1
        apply List.any_eq_true.mpr
        refine ⟨{ src with name := dest }, ?_, ?_⟩
        · exact List.mem_map.mpr ⟨src, List.mem_of_find?_eq_some hf, by simp⟩
        · exact beq_self_eq_true dest

/-! ## C1: idempotence of enable and disable -/

/-- C1 counterexample. For a flat-archive mod the first enable renames
DISABLED_x.zip to x.zip and returns true, but a second enable on the now
already-enabled mod finds no DISABLED_-prefixed archive and returns false
rather than success, while the claim requires the repeated call to return
success. -/
theorem enable_already_enabled_flat_returns_false :
    modsEnable true "c" "x" [⟨"DISABLED_x.zip", .file, 0⟩] =
      .ok ([⟨"x.zip", .file, 0⟩], true) ∧
    modsEnable true "c" "x" [⟨"x.zip", .file, 0⟩] =
      .ok ([⟨"x.zip", .file, 0⟩], false) := by
  exact ⟨by decide, by decide⟩

/-- C1 amended. Enable and disable are idempotent on the repository state:
a repeated call never changes any backing name. For folder-backed mods the
repeated call also returns success (true); for flat-archive mods the
repeated call returns false, because the toggle only searches archives
carrying the opposite prefix. -/
theorem enable_disable_idempotent_state_amended
    (fs : CDir) (c m : String)
    (hc : (trimStr c == "") = false) (hm : (trimStr m == "") = false)
    (hpref : hasDisabled m = false) :
    (isDirE fs m = true → modsEnable true c m fs = .ok (fs, true)) ∧
    (isDirE fs m = false → isDirE fs ("DISABLED_" ++ m) = true →
      modsDisable true c m fs = .ok (fs, true)) ∧
    (isDirE fs m = false → isDirE fs ("DISABLED_" ++ m) = false →
      enableFindArch (filesOf fs) m = none →
      modsEnable true c m fs = .ok (fs, false)) ∧
    (isDirE fs m = false → isDirE fs ("DISABLED_" ++ m) = false →
      disableFindArch (filesOf fs) m = none →
      modsDisable true c m fs = .ok (fs, false)) := by
  refine ⟨?_, ?_, ?_, ?_⟩
  · intro h1
    simp [modsEnable, hc, hm, stripDisabled_of_not hpref, h1, hpref]
  · intro h1 h2
    simp [modsDisable, hc, hm, stripDisabled_of_not hpref, h1, h2, hasDisabled_append]
  · intro h1 h2 h3
    simp [modsEnable, hc, hm, stripDisabled_of_not hpref, h1, h2, h3]
  · intro h1 h2 h3
    simp [modsDisable, hc, hm, stripDisabled_of_not hpref, h1, h2, h3]

/-- C1 witness. -/
theorem enable_disable_idempotent_state_amended_witness :
    modsEnable true "c" "m" [⟨"m", .dir, 0⟩] = .ok ([⟨"m", .dir, 0⟩], true) ∧
    modsDisable true "c" "m" [⟨"DISABLED_m", .dir, 0⟩] =
      .ok ([⟨"DISABLED_m", .dir, 0⟩], true) ∧
    modsEnable true "c" "q" [⟨"q.zip", .file, 0⟩] = .ok ([⟨"q.zip", .file, 0⟩], false) := by
  refine ⟨?_, ?_, ?_⟩
  · exact (enable_disable_idempotent_state_amended [⟨"m", .dir, 0⟩] "c" "m"
      (by decide) (by decide) (by decide)).1 (by decide)
  · exact (enable_disable_idempotent_state_amended [⟨"DISABLED_m", .dir, 0⟩] "c" "m"
      (by decide) (by decide) (by decide)).2.1 (by decide) (by decide)
  · exact (enable_disable_idempotent_state_amended [⟨"q.zip", .file, 0⟩] "c" "q"
      (by decide) (by decide) (by decide)).2.2.1 (by decide) (by decide) (by decide)

/-! ## C2: rename to an occupied destination -/

/-- C2. The access-then-throw guard of characters:rename (line 881) and of
mods:renamePrimaryInternal (line 467) throws its TargetExists error inside
the same try block whose catch clause is empty, so the error is swallowed
and fsp.rename is attempted anyway. For a folder-backed mod whose primary
entry is the file A, renaming it to the occupied name B silently replaces
the existing file B (content id 2 is destroyed) and reports changed, and a
character rename onto the occupied directory B surfaces the raw filesystem
rejection instead of the TargetExists error. -/
theorem rename_target_exists_guard_swallowed :
    renamePrimaryInternalFolder [⟨"A", .file, 1⟩, ⟨"B", .file, 2⟩] "B" =
      .ok ([⟨"B", .file, 1⟩], true) ∧
    charactersRename true [⟨"A", true, 0⟩, ⟨"B", true, 1⟩] "A" "B" 7 =
      .error "EEXIST" := by
  exact ⟨by decide, by decide⟩

/-! ## C3: collision policy of the enable and disable toggles -/

/-- C3 counterexample. Disabling the flat-archive mod x while
DISABLED_x.zip already exists does not disambiguate with a numeric suffix:
the existing DISABLED_x.zip (content id 1) is force-removed and x.zip is
renamed over it, so the operation overwrites the existing entry. -/
theorem disable_flat_collision_overwrites :
    modsDisable true "c" "x" [⟨"x.zip", .file, 0⟩, ⟨"DISABLED_x.zip", .file, 1⟩] =
      .ok ([⟨"DISABLED_x.zip", .file, 0⟩], true) := by
  decide

/-- C3 amended. For folder-backed mods the prefix toggle really does append
a numeric disambiguator: with both the folder m and the colliding folder
DISABLED_m present, and the name DISABLED_m (2) free, disable renames m to
DISABLED_m (2) and succeeds. For flat-archive mods, however, a colliding
target is force-removed and overwritten instead (second conjunct, via the
dedicated flat handler). -/
theorem toggle_collision_policy_amended
    (fs : CDir) (c m : String)
    (hc : (trimStr c == "") = false) (hm : (trimStr m == "") = false)
    (hpref : hasDisabled m = false)
    (hdir : isDirE fs m = true)
    (hcoll : isDirE fs ("DISABLED_" ++ m) = true)
    (hfree : fs.all (fun e => e.name != "DISABLED_" ++ m ++ " (2)") = true) :
    modsDisable true c m fs =
      .ok (fs.map (fun e =>
            if e.name == m then { e with name := "DISABLED_" ++ m ++ " (2)" } else e),
          true) ∧
    modsDisableFlat true "y" [⟨"y.zip", .file, 3⟩, ⟨"DISABLED_y.zip", .file, 4⟩] =
      .ok ([⟨"DISABLED_y.zip", .file, 3⟩], true) := by
  constructor
  · have hsrc : (fs.find? (fun e => e.name == m)).isSome = true := by
      rcases List.any_eq_true.mp hdir with ⟨e, he, hpe⟩
      apply List.find?_isSome.mpr
      exact ⟨e, he, by simp_all⟩
    have hdst : ∀ e ∈ fs, e.name ≠ "DISABLED_" ++ m ++ " (2)" := by
      intro e he
      have := (List.all_eq_true.mp hfree) e he
      simpa using this
    have hfree2 : isDirE fs ("DISABLED_" ++ m ++ " (2)") = false := isDirE_false_of_all hfree
    have hrn := renameE_clean hsrc hdst
    have hEq : "DISABLED_" ++ m ++ " (" ++ toString 2 ++ ")" = "DISABLED_" ++ m ++ " (2)" := by
      rw [show (toString 2 : String) = "2" from rfl, String.append_assoc, String.append_assoc]
      rfl
    simp only [modsDisable, hc, hm, stripDisabled_of_not hpref, hdir, hcoll, hpref,
      Bool.or_self, Bool.not_false, if_true, if_false]
    simp only [firstFreeDir, hEq, hfree2]
    simp [hrn]
  · decide

/-- C3 witness. -/
theorem toggle_collision_policy_amended_witness :
    modsDisable true "c" "m" [⟨"m", .dir, 0⟩, ⟨"DISABLED_m", .dir, 1⟩] =
      .ok ([⟨"DISABLED_m (2)", .dir, 0⟩, ⟨"DISABLED_m", .dir, 1⟩], true) ∧
    modsDisableFlat true "y" [⟨"y.zip", .file, 3⟩, ⟨"DISABLED_y.zip", .file, 4⟩] =
      .ok ([⟨"DISABLED_y.zip", .file, 3⟩], true) := by
  have h := toggle_collision_policy_amended
    [⟨"m", .dir, 0⟩, ⟨"DISABLED_m", .dir, 1⟩] "c" "m"
    (by decide) (by decide) (by decide) (by decide) (by decide) (by decide)
  exact ⟨h.1, h.2⟩

/-! ## C4: refresh generations -/

/-- C4 counterexample. Load identifiers are Date.now() readings, so two
refresh calls within the same millisecond receive equal tokens, and a task
of the superseded first call then passes the generation comparison and its
result is applied to the view state and the final cache write-through;
refresh calls that pass no load identifier (the enable/disable click
handlers) bypass the comparison entirely. -/
theorem refresh_generation_not_strict :
    loadIdAt (fun _ => 100) 0 = loadIdAt (fun _ => 100) 1 ∧
    runTrace initR [.start 1 (some 100), .start 2 (some 100),
                    .applyTask 1 (some 100) 7, .writeBack 1 (some 100)] =
      ⟨some 100, [(1, 7)], some 1⟩ ∧
    runTrace initR [.start 1 none, .start 2 (some 100), .applyTask 1 none 7] =
      ⟨some 100, [(1, 7)], none⟩ := by
  exact ⟨rfl, by decide, by decide⟩

/-- C4 amended. Load identifiers are millisecond clock readings, hence
non-decreasing but not strictly increasing, and some refresh calls carry no
identifier. Whenever the current generation differs from the token a task
carries, the result is discarded before being applied: once a superseding
refresh with a different token has registered itself, every application
step of the superseded call leaves the state unchanged. -/
theorem refresh_distinct_token_discard
    (s : RSt) (tA tB : Nat) (hne : tA ≠ tB) (hs : s.latest = some tB)
    (post : List RAct)
    (hpost : ∀ a ∈ post,
      (∃ i r, a = .applyTask i (some tA) r) ∨ (∃ i, a = .writeBack i (some tA))) :
    runTrace s post = s := by
  induction post with
  | nil => rfl
  | cons a tl ih =>
    have hstep : rstep s a = s := by
      rcases hpost a (List.mem_cons_self a tl) with h1 | h2
      · obtain ⟨i, r, rfl⟩ := h1
        have : freshOk s.latest (some tA) = false := by
          simp [freshOk, hs]
          exact fun h => hne h.symm
        simp [rstep, this]
      · obtain ⟨i, rfl⟩ := h2
        have : freshOk s.latest (some tA) = false := by
          simp [freshOk, hs]
          exact fun h => hne h.symm
        simp [rstep, this]
    show runTrace (rstep s a) tl = s
    rw [hstep]
    exact ih (fun b hb => hpost b (List.mem_cons_of_mem a hb))

/-- C4 witness. -/
theorem refresh_distinct_token_discard_witness :
    runTrace ⟨some 2, [], none⟩ [.applyTask 1 (some 1) 9, .writeBack 1 (some 1)] =
      ⟨some 2, [], none⟩ := by
  apply refresh_distinct_token_discard ⟨some 2, [], none⟩ 1 2 (by decide) rfl
  intro a ha
  rcases List.mem_cons.mp ha with rfl | ha2
  · exact Or.inl ⟨1, 9, rfl⟩
  · rcases List.mem_cons.mp ha2 with rfl | ha3
    · exact Or.inr ⟨1, rfl⟩
    · exact absurd ha3 (List.not_mem_nil _)

/-! ## C10: flat-archive target location by name -/

/-- C10. The flat-archive finders first seek an exact match on the
prefix-stripped, extension-stripped base name (case-insensitively) and
otherwise fall back to the first archive merely containing the requested
name as a substring. With mods x and xy where only xy.zip matches the
fallback, the disable addressed to mod x renames the archive of mod xy. -/
theorem archive_finder_substring_fallback :
    (∀ (files : List String) (n : String) (f : String),
      files.find? (fun g =>
        archExtTest g && (lowerStr (stripArchiveExt (stripDisabled g)) == lowerStr n)) = some f →
      dataFindArch files n = some f) ∧
    dataFindArch ["xy.zip", "x.zip"] "x" = some "x.zip" ∧
    dataFindArch ["xy.zip"] "x" = some "xy.zip" ∧
    enableFindArch ["DISABLED_xy.zip"] "x" = some "DISABLED_xy.zip" ∧
    disableFindArch ["DISABLED_x.zip", "xy.zip"] "x" = some "xy.zip" ∧
    modsDisable true "c" "x" [⟨"DISABLED_x.zip", .file, 0⟩, ⟨"xy.zip", .file, 1⟩] =
      .ok ([⟨"DISABLED_x.zip", .file, 0⟩, ⟨"DISABLED_xy.zip", .file, 1⟩], true) := by
  refine ⟨?_, by decide, by decide, by decide, by decide, by decide⟩
  intro files n f h
  simp [dataFindArch, h, orElseO]

/-- C10 witness. -/
theorem archive_finder_substring_fallback_witness :
    dataFindArch ["xy.zip", "x.zip"] "x" = some "x.zip" :=
  archive_finder_substring_fallback.1 ["xy.zip", "x.zip"] "x" "x.zip" (by decide)

/-! ## C5: embedded metadata round trip -/

theorem normMeta_of_valid {v : EmbMeta} (h : validMetaB v = true) : normMeta v = v := by
  obtain ⟨p, i⟩ := v
  cases p <;> cases i <;> simp_all [validMetaB, normMeta, orUndef]

theorem fget_fwrite_self (d : Members) (n : String) (c : FileC) :
    fget (fwrite d n c) n = some c := by
  unfold fwrite fget
  by_cases h : d.any (fun e => e.1 == n) = true
  · rw [if_pos h, List.find?_map]
    have hcomp : ((fun e : String × FileC => e.1 == n) ∘
        (fun e : String × FileC => if e.1 == n then (n, c) else e)) =
        (fun e : String × FileC => e.1 == n) := by
      funext e
      by_cases he : (e.1 == n) = true <;> simp [Function.comp, he]
    rw [hcomp]
    cases hf : List.find? (fun e : String × FileC => e.1 == n) d with
    | none =>
      rcases List.any_eq_true.mp h with ⟨e, he, hpe⟩
      exact absurd (List.find?_eq_none.mp hf e he) (by simp at hpe ⊢; exact hpe)
    | some e =>
      have hpe : (e.1 == n) = true :=
        List.find?_some (p := fun x : String × FileC => x.1 == n) hf
      have he1 : e.1 = n := by simpa using hpe
      simp [hf, he1]
  · rw [if_neg h]
    have hfalse : d.any (fun e => e.1 == n) = false := Bool.eq_false_iff.mpr h
    have hnone : List.find? (fun e : String × FileC => e.1 == n) d = none := by
      rw [List.find?_eq_none]
      intro e he
      have := List.any_eq_false.mp hfalse e he
      simpa using this
    rw [List.find?_append, hnone]
    simp

theorem find?_name_filter_ne (tl : Members) (n m : String) (h : n ≠ m) :
    List.find? (fun e : String × FileC => e.1 == n) (tl.filter (fun e => e.1 != m)) =
    List.find? (fun e : String × FileC => e.1 == n) tl := by
  induction tl with
  | nil => rfl
  | cons e tl ih =>
    rw [List.filter_cons]
    by_cases he : e.1 = m
    · have h1 : (e.1 != m) = false := by simp [he]
      have h2 : (e.1 == n) = false := by
        rw [beq_eq_false_iff_ne, he]
        exact fun hx => h hx.symm
      rw [h1]
      simp only [Bool.false_eq_true, if_false]
      rw [List.find?_cons_of_neg (p := fun x : String × FileC => x.1 == n) _ (by simp [h2]), ih]
    · have h1 : (e.1 != m) = true := by simp [he]
      rw [h1]
      simp only [if_true]
      by_cases h2 : (e.1 == n) = true
      · rw [List.find?_cons_of_pos (p := fun x : String × FileC => x.1 == n) _ h2,
            List.find?_cons_of_pos (p := fun x : String × FileC => x.1 == n) _ h2]
      · rw [List.find?_cons_of_neg (p := fun x : String × FileC => x.1 == n) _ h2,
            List.find?_cons_of_neg (p := fun x : String × FileC => x.1 == n) _ h2, ih]

theorem fget_funlink_ne (d : Members) (n m : String) (h : n ≠ m) :
    fget (funlink d m) n = fget d n := by
  unfold funlink fget
  rw [find?_name_filter_ne d n m h]

theorem fhas_eq_isSome (d : Members) (n : String) : fhas d n = (fget d n).isSome := by
  unfold fhas fget
  cases h : List.find? (fun e : String × FileC => e.1 == n) d with
  | none =>
    simp only [h, Option.map_none', Option.isSome_none]
    exact List.any_eq_false.mpr (fun e he => by simpa using List.find?_eq_none.mp h e he)
  | some e =>
    simp only [h, Option.map_some', Option.isSome_some]
    refine List.any_eq_true.mpr ⟨e, List.mem_of_find?_eq_some h, ?_⟩
    exact List.find?_some (p := fun e : String × FileC => e.1 == n) h

theorem fget_setDataFolder (d : Members) (v : EmbMeta) :
    fget (setDataFolder d v) "data.txt" = some (.metaFile (normMeta v)) := by
  unfold setDataFolder
  rw [fget_funlink_ne _ _ _ (by decide)]
  exact fget_fwrite_self d "data.txt" _

theorem fget_adel_add (a : Members) (n : String) (c : FileC) :
    fget (adel a n ++ [(n, c)]) n = some c := by
  unfold fget
  have hnone : List.find? (fun e : String × FileC => e.1 == n) (adel a n) = none := by
    rw [List.find?_eq_none]
    intro e he
    have := List.of_mem_filter he
    simpa using this
  rw [List.find?_append, hnone]
  simp

/-- C5. Writing the embedded metadata and reading it back returns exactly
the written value, for folder-backed mods through the direct data.txt
write/read and for flat archives through delete-then-add of the reserved
member. The write is a full replace: what is stored under data.txt does
not depend on the previous contents at all. -/
theorem embedded_metadata_roundtrip (v : EmbMeta) (hv : validMetaB v = true) (d a : Members) :
    getDataFolder (setDataFolder d v) = some v ∧
    getDataArch (setDataArch a v) = some v ∧
    (∀ d2, fget (setDataFolder d v) "data.txt" = fget (setDataFolder d2 v) "data.txt") ∧
    (∀ a2, aget (setDataArch a v) "data.txt" = aget (setDataArch a2 v) "data.txt") := by
  have hval : normMeta v = v := normMeta_of_valid hv
  have hfolder : fget (setDataFolder d v) "data.txt" = some (.metaFile (normMeta v)) :=
    fget_setDataFolder d v
  have harch : ∀ b : Members, aget (setDataArch b v) "data.txt" =
      some (.metaFile (normMeta v)) := by
    intro b
    show fget (adel (adel (adel b "data") "data.txt") "data.txt" ++ [("data.txt", _)])
      "data.txt" = _
    exact fget_adel_add _ _ _
  refine ⟨?_, ?_, ?_, ?_⟩
  · unfold getDataFolder
    rw [fhas_eq_isSome, hfolder]
    simp [hval]
  · unfold getDataArch
    rw [harch a]
    simp [hval]
  · intro d2
    rw [hfolder, fget_setDataFolder d2 v]
  · intro a2
    rw [harch a, harch a2]

/-- C5 witness. -/
theorem embedded_metadata_roundtrip_witness :
    getDataFolder (setDataFolder [("mod.ini", .payload 3)] ⟨some "https://p", none⟩) =
      some ⟨some "https://p", none⟩ ∧
    getDataArch (setDataArch [("data", .payload 9), ("x", .payload 4)]
        ⟨some "https://p", none⟩) = some ⟨some "https://p", none⟩ := by
  have h := embedded_metadata_roundtrip ⟨some "https://p", none⟩ (by decide)
    [("mod.ini", .payload 3)] [("data", .payload 9), ("x", .payload 4)]
  exact ⟨h.1, h.2.1⟩

/-! ## C7: normalizeNames -/

/-- C7. With the mods root set, normalizeNames always returns a report and
raises only when the root is unset; the canonicalization rule trims and
capitalizes (soldier 11 becomes Soldier 11, and the full run renames it
through the two-step temporary rename, recorded by the two rename calls);
already-canonical entries are untouched and unreported; an entry whose
canonical target collides with an existing different entry is skipped and
reported with the filesystem unchanged. -/
theorem normalize_names_behavior :
    (∀ (oracle : Nat → Bool) (tsOf : Nat → Nat) (fs : RootDir),
      ∃ r, charactersNormalizeNames true oracle tsOf fs = .ok r) ∧
    (∀ (oracle : Nat → Bool) (tsOf : Nat → Nat) (fs : RootDir),
      charactersNormalizeNames false oracle tsOf fs = .error "Mods root not set") ∧
    normalizeStr "soldier 11" = "Soldier 11" ∧
    normalizeNamesRun (fun _ => true) (fun _ => 7) [⟨"soldier 11", true, 0⟩] =
      ⟨[⟨"Soldier 11", true, 0⟩], [("soldier 11", "Soldier 11")], [], 2⟩ ∧
    normalizeNamesRun (fun _ => true) (fun _ => 7) [⟨"Soldier 11", true, 0⟩] =
      ⟨[⟨"Soldier 11", true, 0⟩], [], [], 0⟩ ∧
    normalizeNamesRun (fun _ => true) (fun _ => 7) [⟨"foo ", true, 0⟩, ⟨"Foo", true, 1⟩] =
      ⟨[⟨"foo ", true, 0⟩, ⟨"Foo", true, 1⟩], [], ["foo "], 0⟩ := by
  refine ⟨?_, ?_, by decide, by decide, by decide, by decide⟩
  · intro oracle tsOf fs
    exact ⟨_, rfl⟩
  · intro oracle tsOf fs
    rfl

/-! ## C8: skipped entries after normalizeNames -/

/-- C8 counterexample. When the second rename of the case-only two-step
dance fails, the entry is reported as skipped but is left under the
temporary intermediate name: after the run, no entry carries the original
name FOO and the directory sits at FOO__tmp__5. -/
theorem normalize_skip_leaves_temp_name :
    (normalizeNamesRun (fun k => k == 0) (fun _ => 5) [⟨"FOO", true, 0⟩]).skipped =
      ["FOO"] ∧
    (normalizeNamesRun (fun k => k == 0) (fun _ => 5) [⟨"FOO", true, 0⟩]).fs =
      [⟨"FOO__tmp__5", true, 0⟩] ∧
    ((normalizeNamesRun (fun k => k == 0) (fun _ => 5) [⟨"FOO", true, 0⟩]).fs.any
      (fun e => e.name == "FOO")) = false := by
  exact ⟨by decide, by decide, by decide⟩

/-- C8 amended. Whenever an iteration of normalizeNames reports its entry
as skipped, either the filesystem is unchanged by that iteration — the
entry still exists under exactly its original name, as happens for the
collision pre-check and for a failure of the first rename — or the second
rename of the case-only dance failed, in which case the entry is left
under the temporary intermediate name built from the original name. -/
theorem normalize_skip_preservation_amended
    (oracle : Nat → Bool) (tsOf : Nat → Nat) (st : NState) (name : String)
    (h : (normStep oracle tsOf st name).skipped ≠ st.skipped) :
    (normStep oracle tsOf st name).skipped = st.skipped ++ [name] ∧
    ((normStep oracle tsOf st name).fs = st.fs ∨
      ((normStep oracle tsOf st name).fs.any
        (fun e => e.name == name ++ "__tmp__" ++ toString (tsOf st.calls))) = true) := by
  by_cases h1 : (!isDirCI st.fs name) = true
  · simp only [normStep, h1, if_true] at h
    exact absurd rfl h
  · have h1f : (!isDirCI st.fs name) = false := Bool.eq_false_iff.mpr h1
    by_cases h2 : (normalizeStr name == name) = true
    · simp only [normStep, h1f, Bool.false_eq_true, if_false, h2, if_true] at h
      exact absurd rfl h
    · have h2f : (normalizeStr name == name) = false := Bool.eq_false_iff.mpr h2
      by_cases h3 : (lowerStr name == lowerStr (normalizeStr name)) = true
      · cases hr1 : renameCI st.fs name (name ++ "__tmp__" ++ toString (tsOf st.calls))
            (oracle st.calls) with
        | error e =>
          simp [normStep, h1f, h2f, h3, hr1]
        | ok fs1 =>
          cases hr2 : renameCI fs1 (name ++ "__tmp__" ++ toString (tsOf st.calls))
              (normalizeStr name) (oracle (st.calls + 1)) with
          | error e =>
            simp only [normStep, h1f, Bool.false_eq_true, if_false, h2f, h3, if_true, hr1, hr2]
            refine ⟨by simp, Or.inr ?_⟩
            simpa using renameCI_ok_any hr1
          | ok fs2 =>
            simp only [normStep, h1f, Bool.false_eq_true, if_false, h2f, h3, if_true,
              hr1, hr2] at h
            exact absurd rfl h
      · have h3f : (lowerStr name == lowerStr (normalizeStr name)) = false :=
          Bool.eq_false_iff.mpr h3
        by_cases h4 : existsCI st.fs (normalizeStr name) = true
        · simp [normStep, h1f, h2f, h3f, h4]
        · have h4f : existsCI st.fs (normalizeStr name) = false := Bool.eq_false_iff.mpr h4
          cases hr : renameCI st.fs name (normalizeStr name) (oracle st.calls) with
          | error e =>
            simp [normStep, h1f, h2f, h3f, h4f, hr]
          | ok fs1 =>
            simp only [normStep, h1f, Bool.false_eq_true, if_false, h2f, h3f, h4f, hr] at h
            exact absurd rfl h

/-- C8 witness. -/
theorem normalize_skip_preservation_amended_witness :
    (normStep (fun _ => true) (fun _ => 7)
        ⟨[⟨"foo ", true, 0⟩, ⟨"Foo", true, 1⟩], [], [], 0⟩ "foo ").skipped =
      [] ++ ["foo "] ∧
    ((normStep (fun _ => true) (fun _ => 7)
        ⟨[⟨"foo ", true, 0⟩, ⟨"Foo", true, 1⟩], [], [], 0⟩ "foo ").fs =
        [⟨"foo ", true, 0⟩, ⟨"Foo", true, 1⟩] ∨
      ((normStep (fun _ => true) (fun _ => 7)
        ⟨[⟨"foo ", true, 0⟩, ⟨"Foo", true, 1⟩], [], [], 0⟩ "foo ").fs.any
        (fun e => e.name == "foo " ++ "__tmp__" ++ toString ((fun _ : Nat => 7) 0))) = true) :=
  normalize_skip_preservation_amended (fun _ => true) (fun _ => 7)
    ⟨[⟨"foo ", true, 0⟩, ⟨"Foo", true, 1⟩], [], [], 0⟩ "foo " (by decide)

/-! ## C9: cache bound and LRU eviction -/

theorem oldestStep_fold_stay {α : Type} (l : CacheMap α) (bk : String) (bt : Nat)
    (h : ∀ p ∈ l, bt ≤ p.2.ts) :
    l.foldl oldestStep (some (bk, bt)) = some (bk, bt) := by
  induction l with
  | nil => rfl
  | cons p tl ih =>
    have hp : bt ≤ p.2.ts := h p (List.mem_cons_self p tl)
    have hstep : oldestStep (some (bk, bt)) p = some (bk, bt) := by
      simp [oldestStep, Nat.not_lt.mpr hp]
    rw [List.foldl_cons, hstep]
    exact ih (fun q hq => h q (List.mem_cons_of_mem p hq))

theorem oldestStep_fold_shape {α : Type} (l : CacheMap α) (acc : Option (String × Nat)) :
    l.foldl oldestStep acc = acc ∨ ∃ p ∈ l, l.foldl oldestStep acc = some (p.1, p.2.ts) := by
  induction l generalizing acc with
  | nil => exact Or.inl rfl
  | cons p tl ih =>
    rw [List.foldl_cons]
    have hstep : oldestStep acc p = acc ∨ oldestStep acc p = some (p.1, p.2.ts) := by
      cases acc with
      | none => exact Or.inr rfl
      | some b =>
        obtain ⟨bk, bt⟩ := b
        by_cases hlt : p.2.ts < bt
        · exact Or.inr (by simp [oldestStep, hlt])
        · exact Or.inl (by simp [oldestStep, hlt])
    rcases hstep with h1 | h1
    · rw [h1]
      rcases ih acc with h2 | ⟨q, hq, h2⟩
      · exact Or.inl h2
      · exact Or.inr ⟨q, List.mem_cons_of_mem p hq, h2⟩
    · rw [h1]
      rcases ih (some (p.1, p.2.ts)) with h2 | ⟨q, hq, h2⟩
      · exact Or.inr ⟨p, List.mem_cons_self p tl, h2⟩
      · exact Or.inr ⟨q, List.mem_cons_of_mem p hq, h2⟩

theorem oldestStep_fold_isSome {α : Type} (l : CacheMap α) (b : String × Nat) :
    (l.foldl oldestStep (some b)).isSome = true := by
  induction l generalizing b with
  | nil => rfl
  | cons p tl ih =>
    rw [List.foldl_cons]
    obtain ⟨bk, bt⟩ := b
    by_cases hlt : p.2.ts < bt
    · rw [show oldestStep (some (bk, bt)) p = some (p.1, p.2.ts) from by simp [oldestStep, hlt]]
      exact ih _
    · rw [show oldestStep (some (bk, bt)) p = some (bk, bt) from by simp [oldestStep, hlt]]
      exact ih _

theorem oldestKey_of_strict_min {α : Type} (pre suf : CacheMap α) (m : String × CacheEntry α)
    (hpre : ∀ p ∈ pre, m.2.ts < p.2.ts) (hsuf : ∀ p ∈ suf, m.2.ts ≤ p.2.ts) :
    oldestKey (pre ++ m :: suf) = some m.1 := by
  unfold oldestKey
  rw [List.foldl_append, List.foldl_cons]
  have hmid : oldestStep (pre.foldl oldestStep none) m = some (m.1, m.2.ts) := by
    rcases oldestStep_fold_shape pre none with h1 | ⟨q, hq, h1⟩
    · rw [h1]; rfl
    · rw [h1]
      simp [oldestStep, hpre q hq]
  rw [hmid, oldestStep_fold_stay suf m.1 m.2.ts hsuf]
  rfl

theorem mSet_length_le {α : Type} (c : CacheMap α) (k : String) (e : CacheEntry α) :
    (mSet c k e).length ≤ c.length + 1 := by
  unfold mSet
  by_cases h : c.any (fun p => p.1 == k) = true
  · rw [if_pos h, List.length_map]
    exact Nat.le_succ _
  · rw [if_neg h, List.length_append]
    simp

/-- C9. The cache never exceeds 5 entries; inserting a snapshot for a 6th
distinct character evicts exactly the entry with the strictly least-recent
last-access timestamp, leaving every other entry in place and the new
entry present; reading a cached character refreshes its timestamp. -/
theorem cache_lru_bound_eviction {α : Type} (c : CacheMap α) (k : String) (d : α) (now : Nat) :
    (c.length ≤ 5 → (writeCache c k d now).length ≤ 5) ∧
    (∀ m ∈ c, c.length = 5 → (c.map (fun p => p.1)).Nodup →
      c.any (fun p => p.1 == k) = false →
      (∀ p ∈ c, p.1 ≠ m.1 → m.2.ts < p.2.ts) → m.2.ts ≤ now →
      writeCache c k d now = mDelete c m.1 ++ [(k, ⟨d, now⟩)]) ∧
    (∀ e, mFind c k = some e → applyCache c k now = (some e.data, mSet c k ⟨e.data, now⟩)) := by
  refine ⟨?_, ?_, ?_⟩
  · intro hle
    unfold writeCache
    by_cases hbig : 5 < (mSet c k ⟨d, now⟩).length
    · rw [if_pos hbig]
      have hlen : (mSet c k ⟨d, now⟩).length ≤ 6 := by
        have := mSet_length_le c k ⟨d, now⟩
        omega
      have hne : mSet c k ⟨d, now⟩ ≠ [] := by
        intro hx
        rw [hx] at hbig
        simp at hbig
      cases hok : oldestKey (mSet c k ⟨d, now⟩) with
      | none =>
        exfalso
        obtain ⟨p, tl, hptl⟩ : ∃ p tl, mSet c k ⟨d, now⟩ = p :: tl := by
          cases hX : mSet c k ⟨d, now⟩ with
          | nil => exact absurd hX hne
          | cons p tl => exact ⟨p, tl, rfl⟩
        unfold oldestKey at hok
        rw [hptl, List.foldl_cons] at hok
        have := oldestStep_fold_isSome tl (p.1, p.2.ts)
        rw [show oldestStep none p = some (p.1, p.2.ts) from rfl] at hok
        rw [Option.map_eq_none'] at hok
        rw [hok] at this
        simp at this
      | some k2 =>
        show (mDelete (mSet c k ⟨d, now⟩) k2).length ≤ 5
        have hex : ∃ p ∈ mSet c k ⟨d, now⟩, p.1 = k2 := by
          unfold oldestKey at hok
          rcases oldestStep_fold_shape (mSet c k ⟨d, now⟩) none with h1 | ⟨q, hq, h1⟩
          · rw [h1] at hok
            simp at hok
          · rw [h1] at hok
            simp at hok
            exact ⟨q, hq, hok⟩
        have hlt : (mDelete (mSet c k ⟨d, now⟩) k2).length <
            (mSet c k ⟨d, now⟩).length := by
          unfold mDelete
          rw [List.length_filter_lt_length_iff_exists]
          obtain ⟨p, hp, hpk⟩ := hex
          exact ⟨p, hp, by simp [hpk]⟩
        omega
    · rw [if_neg hbig]
      omega
  · intro m hm h5 hnd hanyf hmin hnow
    have hknotin : ∀ p ∈ c, (p.1 == k) = false := fun p hp =>
      Bool.eq_false_iff.mpr (List.any_eq_false.mp hanyf p hp)
    have hset : mSet c k ⟨d, now⟩ = c ++ [(k, ⟨d, now⟩)] := by
      unfold mSet
      rw [if_neg (by simp [hanyf])]
    obtain ⟨pre, suf, hdecomp⟩ := List.append_of_mem hm
    have hmk : m.1 ≠ k := by
      have := hknotin m hm
      simpa using this
    have hprekeys : ∀ p ∈ pre, p.1 ≠ m.1 := by
      intro p hp hpk
      rw [hdecomp, List.map_append, List.nodup_append] at hnd
      have hdisj := hnd.2.2
      exact hdisj (a := m.1) (by rw [← hpk]; exact List.mem_map_of_mem _ hp)
        (by simp)
    have hsufkeys : ∀ p ∈ suf, p.1 ≠ m.1 := by
      intro p hp hpk
      rw [hdecomp, List.map_append, List.nodup_append] at hnd
      have hcons := hnd.2.1
      rw [List.map_cons, List.nodup_cons] at hcons
      exact hcons.1 (by rw [← hpk]; exact List.mem_map_of_mem _ hp)
    have hpre : ∀ p ∈ pre, m.2.ts < p.2.ts := by
      intro p hp
      exact hmin p (by rw [hdecomp]; exact List.mem_append_left _ hp) (hprekeys p hp)
    have hsuf : ∀ p ∈ suf ++ [(k, ⟨d, now⟩)], m.2.ts ≤ p.2.ts := by
      intro p hp
      rcases List.mem_append.mp hp with h1 | h1
      · exact Nat.le_of_lt (hmin p
          (by rw [hdecomp]; exact List.mem_append_right _ (List.mem_cons_of_mem _ h1))
          (hsufkeys p h1))
      · rcases List.mem_singleton.mp h1 with rfl
        exact hnow
    have hc1 : mSet c k ⟨d, now⟩ = pre ++ m :: (suf ++ [(k, ⟨d, now⟩)]) := by
      rw [hset, hdecomp]
      simp
    have hok : oldestKey (mSet c k ⟨d, now⟩) = some m.1 := by
      rw [hc1]
      exact oldestKey_of_strict_min pre _ m hpre hsuf
    have hlen : (mSet c k ⟨d, now⟩).length = 6 := by
      rw [hset, List.length_append, h5]
      rfl
    unfold writeCache
    rw [if_pos (by rw [hlen]; omega), hok]
    show mDelete (mSet c k ⟨d, now⟩) m.1 = mDelete c m.1 ++ [(k, ⟨d, now⟩)]
    unfold mDelete
    rw [hset, List.filter_append]
    have hnew : List.filter (fun p => p.1 != m.1) [(k, (⟨d, now⟩ : CacheEntry α))] =
        [(k, ⟨d, now⟩)] := by
      simp [List.filter_cons]
      intro hkm
      exact absurd hkm.symm hmk
    rw [hnew]
  · intro e he
    unfold applyCache
    rw [he]

/-- C9 witness. -/
theorem cache_lru_bound_eviction_witness :
    writeCache
        [("a", ⟨0, 10⟩), ("b", ⟨1, 3⟩), ("c", ⟨2, 11⟩), ("d", ⟨3, 12⟩), ("e", ⟨4, 13⟩)]
        "f" (9 : Nat) 20 =
      mDelete [("a", ⟨0, 10⟩), ("b", ⟨1, 3⟩), ("c", ⟨2, 11⟩), ("d", ⟨3, 12⟩), ("e", ⟨4, 13⟩)]
          "b" ++ [("f", ⟨9, 20⟩)] ∧
    ([("a", (⟨0, 10⟩ : CacheEntry Nat)), ("b", ⟨1, 3⟩), ("c", ⟨2, 11⟩), ("d", ⟨3, 12⟩),
        ("e", ⟨4, 13⟩)].length ≤ 5 →
      (writeCache [("a", ⟨0, 10⟩), ("b", ⟨1, 3⟩), ("c", ⟨2, 11⟩), ("d", ⟨3, 12⟩),
        ("e", ⟨4, 13⟩)] "f" (9 : Nat) 20).length ≤ 5) ∧
    applyCache [("a", (⟨0, 10⟩ : CacheEntry Nat)), ("b", ⟨1, 3⟩), ("c", ⟨2, 11⟩),
        ("d", ⟨3, 12⟩), ("e", ⟨4, 13⟩)] "b" 20 =
      (some 1, mSet [("a", ⟨0, 10⟩), ("b", ⟨1, 3⟩), ("c", ⟨2, 11⟩), ("d", ⟨3, 12⟩),
        ("e", ⟨4, 13⟩)] "b" ⟨1, 20⟩) := by
  have h := cache_lru_bound_eviction
    [("a", (⟨0, 10⟩ : CacheEntry Nat)), ("b", ⟨1, 3⟩), ("c", ⟨2, 11⟩), ("d", ⟨3, 12⟩),
      ("e", ⟨4, 13⟩)] "f" 9 20
  have h2 := cache_lru_bound_eviction
    [("a", (⟨0, 10⟩ : CacheEntry Nat)), ("b", ⟨1, 3⟩), ("c", ⟨2, 11⟩), ("d", ⟨3, 12⟩),
      ("e", ⟨4, 13⟩)] "b" 9 20
  refine ⟨?_, h.1, ?_⟩
  · exact h.2.1 ("b", ⟨1, 3⟩) (by decide) (by decide) (by decide) (by decide)
      (by decide) (by decide)
  · exact h2.2.2 ⟨1, 3⟩ (by decide)

/-! ## C6: the primary-entry computation -/

theorem scan_seen (P : List String) (l : List RawEntry) (st : ScanSt) :
    (l.foldl (scanStep P) st).seen = l.foldl seenStepF st.seen := by
  induction l generalizing st with
  | nil => rfl
  | cons e tl ih =>
    rw [List.foldl_cons, List.foldl_cons, ih]
    congr 1
    by_cases h : eligEntry e = true
    · simp [scanStep, seenStepF, h]
    · simp [scanStep, seenStepF, h]

theorem mem_seenFold (l : List RawEntry) (acc : List String) (t : String) :
    t ∈ l.foldl seenStepF acc ↔ (t ∈ acc ∨ eTop l t = true) := by
  induction l generalizing acc with
  | nil => simp [eTop]
  | cons e tl ih =>
    rw [List.foldl_cons]
    rw [ih]
    have hetop : eTop (e :: tl) t =
        ((eligEntry e && (splitFirstTop e.path == t)) || eTop tl t) := by
      simp [eTop, List.any_cons]
    rw [hetop]
    by_cases h : eligEntry e = true
    · by_cases ht : splitFirstTop e.path = t
      · subst ht
        by_cases hin : (acc.any (fun x => x == splitFirstTop e.path)) = true
        · have hmem : splitFirstTop e.path ∈ acc := by
            rcases List.any_eq_true.mp hin with ⟨x, hx, hxe⟩
            rwa [show x = splitFirstTop e.path from by simpa using hxe] at hx
          simp [seenStepF, h, hin, hmem]
        · simp [seenStepF, h, hin]
      · have hne : (splitFirstTop e.path == t) = false := by
          simpa using ht
        by_cases hin : (acc.any (fun x => x == splitFirstTop e.path)) = true
        · simp [seenStepF, h, hin, hne]
        · have hstep : seenStepF acc e = acc ++ [splitFirstTop e.path] := by
            simp [seenStepF, h, hin]
          rw [hstep]
          simp only [List.mem_append, List.mem_singleton, h, hne, Bool.true_and,
            Bool.false_or]
          constructor
          · rintro ((h1 | h1) | h1)
            · exact Or.inl h1
            · exact absurd h1.symm ht
            · exact Or.inr h1
          · rintro (h1 | h1)
            · exact Or.inl (Or.inl h1)
            · exact Or.inr h1
    · simp [seenStepF, h]

theorem dlookup_dset_self (m : List (String × Bool)) (k : String) (v : Bool) :
    dlookup (dset m k v) k = some v := by
  unfold dset dlookup
  by_cases hany : m.any (fun e => e.1 == k) = true
  · rw [if_pos hany, List.find?_map]
    have hcomp : ((fun e : String × Bool => e.1 == k) ∘
        (fun e : String × Bool => if e.1 == k then (k, v) else e)) =
        (fun e : String × Bool => e.1 == k) := by
      funext e
      by_cases he : (e.1 == k) = true <;> simp [Function.comp, he]
    rw [hcomp]
    cases hf : List.find? (fun e : String × Bool => e.1 == k) m with
    | none =>
      rcases List.any_eq_true.mp hany with ⟨e, he, hpe⟩
      exact absurd (List.find?_eq_none.mp hf e he) (by simp at hpe ⊢; exact hpe)
    | some e =>
      have hpe : (e.1 == k) = true :=
        List.find?_some (p := fun x : String × Bool => x.1 == k) hf
      have he1 : e.1 = k := by simpa using hpe
      simp [hf, he1]
  · rw [if_neg hany]
    have hfalse : m.any (fun e => e.1 == k) = false := Bool.eq_false_iff.mpr hany
    have hnone : List.find? (fun e : String × Bool => e.1 == k) m = none := by
      rw [List.find?_eq_none]
      intro e he
      simpa using List.any_eq_false.mp hfalse e he
    rw [List.find?_append, hnone]
    simp

theorem dlookup_dset_ne (m : List (String × Bool)) (k : String) (v : Bool) (t : String)
    (h : k ≠ t) :
    dlookup (dset m k v) t = dlookup m t := by
  unfold dset dlookup
  by_cases hany : m.any (fun e => e.1 == k) = true
  · rw [if_pos hany, List.find?_map]
    have hcomp : ((fun e : String × Bool => e.1 == t) ∘
        (fun e : String × Bool => if e.1 == k then (k, v) else e)) =
        (fun e : String × Bool => e.1 == t) := by
      funext e
      by_cases he : (e.1 == k) = true
      · have hek : e.1 = k := by simpa using he
        simp [Function.comp, he, hek]
      · simp [Function.comp, he]
    rw [hcomp]
    cases hf : List.find? (fun e : String × Bool => e.1 == t) m with
    | none => rfl
    | some e =>
      have hpe : (e.1 == t) = true :=
        List.find?_some (p := fun x : String × Bool => x.1 == t) hf
      have het : e.1 = t := by simpa using hpe
      have hnek : ¬(e.1 = k) := by
        rw [het]
        exact fun hx => h hx.symm
      simp [hf, hnek]
  · rw [if_neg hany, List.find?_append]
    cases hf : List.find? (fun e : String × Bool => e.1 == t) m with
    | none =>
      have hkt : (k == t) = false := by simpa using h
      simp [List.find?_cons, hkt]
    | some e => simp

theorem dlookup_append_false_self (m : List (String × Bool)) (t : String)
    (h : dlookup m t = none) :
    dlookup (m ++ [(t, false)]) t = some false := by
  unfold dlookup at h ⊢
  have hnone : List.find? (fun e : String × Bool => e.1 == t) m = none := by
    cases hf : List.find? (fun e : String × Bool => e.1 == t) m with
    | none => rfl
    | some e => rw [hf] at h; simp at h
  rw [List.find?_append, hnone]
  simp [List.find?_cons]

theorem dlookup_append_false_ne (m : List (String × Bool)) (k t : String) (h : k ≠ t) :
    dlookup (m ++ [(k, false)]) t = dlookup m t := by
  unfold dlookup
  rw [List.find?_append]
  cases hf : List.find? (fun e : String × Bool => e.1 == t) m with
  | none =>
    have hkt : (k == t) = false := by simpa using h
    simp [List.find?_cons, hkt]
  | some e => simp

theorem scan_dmap (P : List String) (l : List RawEntry) (st : ScanSt) (t : String) :
    dlookup ((l.foldl (scanStep P) st).dmap) t =
      (if (eTop l t || (dlookup st.dmap t).isSome) = true then
        some ((dlookup st.dmap t).getD false || eFlag l t ||
          (hasChildrenP P t && eTop l t))
      else none) := by
  induction l generalizing st with
  | nil =>
    simp only [List.foldl_nil, eTop, eFlag, List.any_nil, Bool.false_or, Bool.or_false,
      Bool.and_false]
    cases dlookup st.dmap t <;> simp
  | cons e tl ih =>
    rw [List.foldl_cons, ih]
    have hetop : eTop (e :: tl) t =
        ((eligEntry e && (splitFirstTop e.path == t)) || eTop tl t) := by
      simp [eTop, List.any_cons]
    have heflag : eFlag (e :: tl) t =
        ((eligEntry e && (splitFirstTop e.path == t) && e.folderFlag) || eFlag tl t) := by
      simp [eFlag, List.any_cons]
    rw [hetop, heflag]
    by_cases helig : eligEntry e = true
    · by_cases htop : (splitFirstTop e.path == t) = true
      · have htEq : splitFirstTop e.path = t := by simpa using htop
        by_cases hdir : (e.folderFlag || hasChildrenP P (splitFirstTop e.path)) = true
        · have hst : (scanStep P st e).dmap = dset st.dmap (splitFirstTop e.path) true := by
            simp [scanStep, helig, hdir]
          rw [hst, htEq, dlookup_dset_self]
          rw [htEq] at hdir
          simp only [helig, htop, Bool.true_and, Bool.true_or, Option.isSome_some,
            Bool.or_true, if_true, Option.getD_some]
          rcases Bool.or_eq_true_iff.mp hdir with hf | hc
          · simp [hf]
          · simp [hc]
        · have hdirf : (e.folderFlag || hasChildrenP P (splitFirstTop e.path)) = false :=
            Bool.eq_false_iff.mpr hdir
          have hflagf : e.folderFlag = false := (Bool.or_eq_false_iff.mp hdirf).1
          have hchf : hasChildrenP P t = false := by
            have := (Bool.or_eq_false_iff.mp hdirf).2
            rwa [htEq] at this
          by_cases hpres : (dlookup st.dmap t).isSome = true
          · have hst : (scanStep P st e).dmap = st.dmap := by
              unfold scanStep
              rw [if_pos helig]
              show (if (e.folderFlag || hasChildrenP P (splitFirstTop e.path)) = true
                    then dset st.dmap (splitFirstTop e.path) true
                    else if (dlookup st.dmap (splitFirstTop e.path)).isSome = true then st.dmap
                    else st.dmap ++ [(splitFirstTop e.path, false)]) = st.dmap
              rw [if_neg hdir, htEq, if_pos hpres]
            rw [hst]
            simp only [helig, htop, hflagf, hchf, Bool.true_and, Bool.true_or, hpres,
              Bool.or_true, if_true, Bool.and_false, Bool.false_and, Bool.and_true,
              Bool.or_false, Bool.false_or, Bool.and_self]
          · have hnone : dlookup st.dmap t = none := by
              cases hx : dlookup st.dmap t with
              | none => rfl
              | some b => rw [hx] at hpres; simp at hpres
            have hst : (scanStep P st e).dmap = st.dmap ++ [(t, false)] := by
              unfold scanStep
              rw [if_pos helig]
              show (if (e.folderFlag || hasChildrenP P (splitFirstTop e.path)) = true
                    then dset st.dmap (splitFirstTop e.path) true
                    else if (dlookup st.dmap (splitFirstTop e.path)).isSome = true then st.dmap
                    else st.dmap ++ [(splitFirstTop e.path, false)]) =
                st.dmap ++ [(t, false)]
              rw [if_neg hdir, htEq, if_neg (by rw [hnone]; simp)]
            rw [hst, dlookup_append_false_self st.dmap t hnone]
            simp only [helig, htop, hflagf, hchf, hnone, Bool.true_and, Bool.true_or,
              Option.isSome_some, Bool.or_true, if_true, Option.getD_some,
              Option.getD_none, Option.isSome_none, Bool.and_false, Bool.false_and,
              Bool.and_true, Bool.or_false, Bool.false_or, Option.getD]
      · have htopf : (splitFirstTop e.path == t) = false := Bool.eq_false_iff.mpr htop
        have htne : splitFirstTop e.path ≠ t := by simpa using htopf
        have hpreserve : dlookup (scanStep P st e).dmap t = dlookup st.dmap t := by
          by_cases hdir : (e.folderFlag || hasChildrenP P (splitFirstTop e.path)) = true
          · have hst : (scanStep P st e).dmap = dset st.dmap (splitFirstTop e.path) true := by
              simp [scanStep, helig, hdir]
            rw [hst, dlookup_dset_ne _ _ _ _ htne]
          · have hdirf : (e.folderFlag || hasChildrenP P (splitFirstTop e.path)) = false :=
              Bool.eq_false_iff.mpr hdir
            by_cases hpres : (dlookup st.dmap (splitFirstTop e.path)).isSome = true
            · have hst : (scanStep P st e).dmap = st.dmap := by
                unfold scanStep
                rw [if_pos helig]
                show (if (e.folderFlag || hasChildrenP P (splitFirstTop e.path)) = true
                      then dset st.dmap (splitFirstTop e.path) true
                      else if (dlookup st.dmap (splitFirstTop e.path)).isSome = true then st.dmap
                      else st.dmap ++ [(splitFirstTop e.path, false)]) = st.dmap
                rw [if_neg hdir, if_pos hpres]
              rw [hst]
            · have hnone2 : dlookup st.dmap (splitFirstTop e.path) = none := by
                cases hx : dlookup st.dmap (splitFirstTop e.path) with
                | none => rfl
                | some b => rw [hx] at hpres; simp at hpres
              have hst : (scanStep P st e).dmap =
                  st.dmap ++ [(splitFirstTop e.path, false)] := by
                unfold scanStep
                rw [if_pos helig]
                show (if (e.folderFlag || hasChildrenP P (splitFirstTop e.path)) = true
                      then dset st.dmap (splitFirstTop e.path) true
                      else if (dlookup st.dmap (splitFirstTop e.path)).isSome = true then st.dmap
                      else st.dmap ++ [(splitFirstTop e.path, false)]) =
                  st.dmap ++ [(splitFirstTop e.path, false)]
                rw [if_neg hdir, if_neg hpres]
              rw [hst, dlookup_append_false_ne _ _ _ htne]
        rw [hpreserve]
        simp only [htopf, Bool.and_false, Bool.false_and, Bool.false_or]
    · have hst : scanStep P st e = st := by simp [scanStep, helig]
      have heligf : eligEntry e = false := Bool.eq_false_iff.mpr helig
      rw [hst]
      simp only [heligf, Bool.false_and, Bool.false_or]

theorem find?_congr_mem {α : Type} (l : List α) (p q : α → Bool)
    (h : ∀ x ∈ l, p x = q x) : l.find? p = l.find? q := by
  induction l with
  | nil => rfl
  | cons a tl ih =>
    have ha := h a (List.mem_cons_self a tl)
    by_cases hpa : p a = true
    · rw [List.find?_cons_of_pos (p := p) _ hpa,
        List.find?_cons_of_pos (p := q) _ (ha ▸ hpa)]
    · rw [List.find?_cons_of_neg (p := p) _ hpa,
        List.find?_cons_of_neg (p := q) _ (by rwa [← ha]),
        ih (fun x hx => h x (List.mem_cons_of_mem a hx))]

/-- C6. The primary-entry computation of the archive scan equals the
specification shape: exclude reserved top-level names, then return the
first-seen container if any remains, otherwise the first-seen remaining
entry, and none when no eligible entry exists. In particular, a flat
archive holding the directory CharacterMod together with data.txt and
preview.png resolves to CharacterMod, as does the folder-backed variant. -/
theorem primary_entry_computation (es : List RawEntry) :
    getPrimaryFromArchive es = primarySpec es ∧
    getPrimaryFromArchive [⟨"CharacterMod", true⟩, ⟨"CharacterMod/mesh.ini", false⟩,
      ⟨"data.txt", false⟩, ⟨"preview.png", false⟩] = some "CharacterMod" ∧
    folderPrimaryName [⟨"CharacterMod", .dir, 0⟩, ⟨"data.txt", .file, 1⟩,
      ⟨"preview.png", .file, 2⟩] = some "CharacterMod" := by
  refine ⟨?_, by decide, by decide⟩
  have hseen : (scanEntries es).seen = firstSeenTops es := by
    unfold scanEntries firstSeenTops
    exact scan_seen _ es ⟨[], []⟩
  have hmem : ∀ t ∈ firstSeenTops es, eTop es t = true := by
    intro t ht
    unfold firstSeenTops at ht
    rcases (mem_seenFold es [] t).mp ht with h1 | h1
    · exact absurd h1 (List.not_mem_nil t)
    · exact h1
  have hpred : ∀ t ∈ (scanEntries es).seen,
      (dlookup (scanEntries es).dmap t == some true) = topIsDir es t := by
    intro t ht
    have hT : eTop es t = true := hmem t (hseen ▸ ht)
    have hd := scan_dmap (es.map (·.path)) es ⟨[], []⟩ t
    have h0 : dlookup (ScanSt.dmap ⟨[], []⟩) t = none := rfl
    rw [h0] at hd
    simp only [Option.isSome_none, Bool.or_false, hT, if_true, Option.getD_none,
      Bool.false_or, Bool.and_true] at hd
    show (dlookup (es.foldl (scanStep (es.map (·.path))) ⟨[], []⟩).dmap t == some true) =
      topIsDir es t
    rw [hd]
    unfold topIsDir
    simp
  have hfind : (scanEntries es).seen.find?
      (fun t => dlookup (scanEntries es).dmap t == some true) =
      (firstSeenTops es).find? (topIsDir es) := by
    rw [← hseen]
    exact find?_congr_mem _ _ _ hpred
  unfold getPrimaryFromArchive primarySpec
  rw [hfind, hseen]
  by_cases hE : (firstSeenTops es).isEmpty = true
  · rw [if_pos hE]
    have hnil : firstSeenTops es = [] := by
      cases hx : firstSeenTops es with
      | nil => rfl
      | cons a tl => rw [hx] at hE; simp at hE
    rw [hnil]
    rfl
  · rw [if_neg hE]

end SyleafMM
